import Mathlib

set_option maxRecDepth 16000

/-!
Verification development for the CCMgen repository
(`ccmpred/model_probabilities.py`, `ccmpred/scripts/run_ccmpred.py`).

Real numbers are modelled as rationals. Since `write_msgpack` works on
numpy float arrays in which division by a zero pair count produces IEEE
infinities and NaNs, the values flowing through the model-probability
computation are modelled by `FVal`: a rational (finite float) extended
with `+inf`, `-inf` and `NaN`, with the IEEE semantics of the exact
operations the source performs (`*`, `/`, `-`, `< 0`, `isnan`).
-/

/-- A numpy floating-point value, idealized: a finite value is an exact
rational; the special values `inf`, `-inf`, `nan` are explicit. -/
inductive FVal where
  | num (q : ℚ)
  | pinf
  | ninf
  | nan
deriving DecidableEq

/-- IEEE multiplication on `FVal` (numpy elementwise `*`). -/
def fmul : FVal → FVal → FVal
  | .nan, _ => .nan
  | _, .nan => .nan
  | .num a, .num b => .num (a * b)
  | .num a, .pinf => if 0 < a then .pinf else if a < 0 then .ninf else .nan
  | .num a, .ninf => if 0 < a then .ninf else if a < 0 then .pinf else .nan
  | .pinf, .num b => if 0 < b then .pinf else if b < 0 then .ninf else .nan
  | .ninf, .num b => if 0 < b then .ninf else if b < 0 then .pinf else .nan
  | .pinf, .pinf => .pinf
  | .pinf, .ninf => .ninf
  | .ninf, .pinf => .ninf
  | .ninf, .ninf => .pinf

/-- IEEE division on `FVal` (numpy elementwise `/`; division by zero
yields a signed infinity or, for `0/0`, NaN). -/
def fdiv : FVal → FVal → FVal
  | .nan, _ => .nan
  | _, .nan => .nan
  | .num a, .num b =>
      if b = 0 then (if 0 < a then .pinf else if a < 0 then .ninf else .nan)
      else .num (a / b)
  | .num _, .pinf => .num 0
  | .num _, .ninf => .num 0
  | .pinf, .num b => if b < 0 then .ninf else .pinf
  | .ninf, .num b => if b < 0 then .pinf else .ninf
  | .pinf, .pinf => .nan
  | .pinf, .ninf => .nan
  | .ninf, .pinf => .nan
  | .ninf, .ninf => .nan

/-- IEEE subtraction on `FVal` (numpy elementwise `-`). -/
def fsub : FVal → FVal → FVal
  | .nan, _ => .nan
  | _, .nan => .nan
  | .num a, .num b => .num (a - b)
  | .num _, .pinf => .ninf
  | .num _, .ninf => .pinf
  | .pinf, .num _ => .pinf
  | .ninf, .num _ => .ninf
  | .pinf, .pinf => .nan
  | .pinf, .ninf => .pinf
  | .ninf, .pinf => .ninf
  | .ninf, .ninf => .nan

/-- IEEE test `v < 0` (as in `model_prob_flat < 0`): NaN compares false,
`-inf` compares true. -/
def isNeg : FVal → Bool
  | .num q => decide (q < 0)
  | .pinf => false
  | .ninf => true
  | .nan => false

/-- `np.isnan`. -/
def isNan : FVal → Bool
  | .nan => true
  | _ => false

/-- The clamp the source applies to negative entries:
`model_prob_flat[model_prob_flat < 0] = 0`. -/
def clampNeg (v : FVal) : FVal := if isNeg v then .num 0 else v

/-- Modelled from the spec: `ccmpred.counts.single_counts` (the module
`ccmpred/counts.py` is not part of the sources). "Single counts: for each
column, the weighted sum of one-hot symbol indicators" (spec section 4.1),
an array shaped `[L, 21]`.  `single_counts msa weights i a` is the entry
for column `i` and symbol state `a`. -/
def single_counts (msa : List (List ℕ)) (weights : List ℚ) (i a : ℕ) : ℚ :=
  (List.zipWith (fun s w => if s.getD i 21 = a then w else 0) msa weights).sum

/-- Modelled from the spec: `ccmpred.counts.pair_counts` (the module
`ccmpred/counts.py` is not part of the sources). "Pair counts: for each
column pair `(i,j)`, the weighted sum of joint one-hot indicators" (spec
section 4.1), an array shaped `[L, L, 21, 21]`. -/
def pair_counts (msa : List (List ℕ)) (weights : List ℚ) (i j a b : ℕ) : ℚ :=
  (List.zipWith
    (fun s w => if s.getD i 21 = a ∧ s.getD j 21 = b then w else 0) msa weights).sum

/-- `calculate_Ni`: `single_counts(msa, weights)[:, :20].sum(1)` — the
single counts restricted to the 20 amino-acid states, summed per column. -/
def calculate_Ni (msa : List (List ℕ)) (weights : List ℚ) (i : ℕ) : ℚ :=
  ∑ a ∈ Finset.range 20, single_counts msa weights i a

/-- `calculate_Nij`: `pair_counts(msa, weights)[:, :, :20, :20].sum(3).sum(2)`
— the pair counts restricted to the 20 amino-acid states, summed per
column pair. -/
def calculate_Nij (msa : List (List ℕ)) (weights : List ℚ) (i j : ℕ) : ℚ :=
  ∑ a ∈ Finset.range 20, ∑ b ∈ Finset.range 20, pair_counts msa weights i j a b

/-- The fields of `res` that `write_msgpack` reads: `res.ncol` and the
pair potentials `res.x_pair` (shape `[L, L, 21, 21]`, as a function). -/
structure CCMRes where
  ncol : ℕ
  x_pair : ℕ → ℕ → ℕ → ℕ → ℚ

/-- `Nij[np.tril_indices(ncol, k=-1)].tolist()`: the strictly lower
triangle of `Nij`, enumerated row-major, i.e. row index `i` ascending
from `1`, and within each row the columns `j < i` ascending. -/
def trilRowwise (L : ℕ) (Nij : ℕ → ℕ → ℚ) : List ℚ :=
  (List.range L).flatMap (fun i => (List.range i).map (fun j => Nij i j))

/-- The pair enumeration of the source loop
`for i in range(ncol-1): for j in range(i+1, ncol):`. -/
def pairList (L : ℕ) : List (ℕ × ℕ) :=
  (List.range (L - 1)).flatMap
    (fun i => (List.range (L - (i + 1))).map (fun k => (i, i + 1 + k)))

/-- One `20 × 20` block, flattened row-major exactly like
`pair_freq[i, j, :20, :20].flatten()`: the entry for symbols `(a, b)`
lands at offset `a * 20 + b`. -/
def block (f : ℕ → ℕ → FVal) : List FVal :=
  (List.range 20).flatMap (fun a => (List.range 20).map (fun b => f a b))

/-- The entry the loop body computes:
`pair_freq_ij - (x_pair_ij * lambda_pair / Nij[i,j])`, in IEEE
arithmetic (all inputs to `write_msgpack` are finite floats). -/
def q_raw (pair_freq x_pair : ℕ → ℕ → ℕ → ℕ → ℚ) (lam : ℚ)
    (Nij : ℕ → ℕ → ℚ) (i j a b : ℕ) : FVal :=
  fsub (.num (pair_freq i j a b))
    (fdiv (fmul (.num (x_pair i j a b)) (.num lam)) (.num (Nij i j)))

/-- The flattened `model_prob` array (`model_prob.flatten()`), before
any clamping: all pairs in loop order, each contributing its row-major
`20 × 20` block. -/
def model_prob_flat (L : ℕ) (pair_freq x_pair : ℕ → ℕ → ℕ → ℕ → ℚ)
    (lam : ℚ) (Nij : ℕ → ℕ → ℚ) : List FVal :=
  (pairList L).flatMap
    (fun p => block (fun a b => q_raw pair_freq x_pair lam Nij p.1 p.2 a b))

/-- The `out` dictionary that `write_msgpack` serializes: the `N_ij`
entry and the `q_ij` entry. -/
structure MsgOut where
  N_ij : List ℚ
  q_ij : List FVal
deriving DecidableEq

/-- `write_msgpack(outmsgpackfile, res, msa, weights, pair_freq, lambda_pair)`.
The negative-entry clamp is applied to the flattened array; the NaN clamp
`model_prob_flat[np.isnan(model_prob)] = 0` indexes the one-dimensional
`model_prob_flat` with the two-dimensional boolean mask
`np.isnan(model_prob)`, which numpy rejects — so whenever a NaN entry is
present the call raises an `IndexError`, modelled by `Except.error`. -/
def write_msgpack (res : CCMRes) (msa : List (List ℕ)) (weights : List ℚ)
    (pair_freq : ℕ → ℕ → ℕ → ℕ → ℚ) (lam : ℚ) : Except String MsgOut :=
  let Nij := calculate_Nij msa weights
  let nijList := trilRowwise res.ncol Nij
  let mp := model_prob_flat res.ncol pair_freq res.x_pair lam Nij
  let mp1 := if mp.any isNeg then mp.map clampNeg else mp
  if mp1.any isNan then
    .error "IndexError: 2-dimensional boolean mask on 1-dimensional array"
  else
    .ok ⟨nijList, mp1⟩

/-- Written from the words of claim C3 and of the spec, for comparison
with `trilRowwise`: the lower-triangular `Nij` values "enumerated
row-wise with the row index `i` going from the largest index downward,
emitting for each row `i` the entries with column `j < i`". -/
def trilRowwiseLargestFirst (L : ℕ) (Nij : ℕ → ℕ → ℚ) : List ℚ :=
  ((List.range L).reverse).flatMap (fun i => (List.range i).map (fun j => Nij i j))

/-!
### The `stream_or_file` decorator

`stream_or_file(mode)` wraps a function `fn` into `streamify`: given a
string path it opens the file itself (with `gzip.open` exactly when the
path ends in `".gz"`), calls `fn` on the handle inside `try`, and closes
the handle in the `finally` block, so the close happens both when `fn`
returns and when it raises; given an already-open stream it simply calls
`fn` on it.  The file-handle world is modelled by `FS`: the set of open
handles, each tagged with whether it was opened through `gzip.open`, and
a fresh-handle counter.  A wrapped function is an arbitrary state
transformer that may return a value or raise (`Except`).
-/

/-- The open-file state: open handles tagged with the gzip flag they
were opened with, plus a fresh-handle counter. -/
structure FS where
  opened : List (ℕ × Bool)
  next : ℕ
deriving DecidableEq

/-- `open` / `gzip.open`: allocate a fresh handle, tagged with whether
gzip was used. -/
def fopen (gz : Bool) (s : FS) : ℕ × FS :=
  (s.next, ⟨(s.next, gz) :: s.opened, s.next + 1⟩)

/-- `fh.close()`: the handle is no longer open. -/
def fclose (h : ℕ) (s : FS) : FS :=
  ⟨s.opened.filter (fun p => p.1 ≠ h), s.next⟩

/-- The first argument of a function wrapped by `stream_or_file`: a
filename or an already-open file-like object. -/
inductive FileArg where
  | path (name : String)
  | stream (h : ℕ)

/-- The `streamify` wrapper produced by `stream_or_file`, applied to a
wrapped function `fn` (an arbitrary effectful function of the handle). -/
def streamify {α : Type} (fn : ℕ → FS → Except String α × FS)
    (f : FileArg) (s : FS) : Except String α × FS :=
  match f with
  | .path name =>
      let gz := name.endsWith ".gz"
      let hs := fopen gz s
      let r := fn hs.1 hs.2
      (r.1, fclose hs.1 r.2)
  | .stream h => fn h s

/-!
### A heap model of `write_msgpack` for the frame claim

Numpy arrays live in a heap of cells (flat `FVal` buffers); the arrays
`write_msgpack` receives — `msa`, `weights`, `res.x_pair`, `pair_freq` —
are cells that exist before the call.  The function allocates the fresh
arrays the source creates (the `calculate_Nij` result and `np.zeros`
for `model_prob`, the `model_prob.flatten()` copy) and the two in-place
assignments of the source (`model_prob[index, :] = ...` and the
negative-entry clamp on `model_prob_flat`) are heap writes to those
fresh cells.  The values computed are the same as in the pure model.
-/

/-- The heap of numpy buffers: cell `r` is `cells[r]`. -/
structure Heap where
  cells : List (List FVal)

/-- `np.zeros` / array-returning calls: allocate a fresh cell. -/
def Heap.alloc (h : Heap) (v : List FVal) : ℕ × Heap :=
  (h.cells.length, ⟨h.cells ++ [v]⟩)

/-- Read a whole buffer. -/
def Heap.read (h : Heap) (r : ℕ) : List FVal :=
  h.cells.getD r []

/-- Overwrite a whole buffer in place. -/
def Heap.write (h : Heap) (r : ℕ) (v : List FVal) : Heap :=
  ⟨h.cells.set r v⟩

/-- The rational carried by a finite cell value (input buffers hold
finite floats). -/
def toQ : FVal → ℚ
  | .num q => q
  | _ => 0

/-- Decode the alignment buffer (shape `[N, L]`, row-major) into rows of
symbol indices. -/
def decodeMsa (cells : List FVal) (N L : ℕ) : List (List ℕ) :=
  (List.range N).map (fun n =>
    (List.range L).map (fun i => (toQ (cells.getD (n * L + i) (.num 0))).num.toNat))

/-- Decode the weight buffer (length `N`). -/
def decodeW (cells : List FVal) (N : ℕ) : List ℚ :=
  (List.range N).map (fun n => toQ (cells.getD n (.num 0)))

/-- Decode a `[L, L, 21, 21]` tensor buffer (row-major). -/
def decodeT (cells : List FVal) (L : ℕ) (i j a b : ℕ) : ℚ :=
  toQ (cells.getD (((i * L + j) * 21 + a) * 21 + b) (.num 0))

/-- `model_prob[index, :] = vals`: overwrite the 400-wide row starting
at flat offset `off`. -/
def setSeg (l : List FVal) (off : ℕ) (vals : List FVal) : List FVal :=
  (List.range vals.length).foldl (fun acc k => acc.set (off + k) (vals.getD k .nan)) l

/-- `write_msgpack` against the heap model: `msaR`, `wR`, `xR`, `pR` are
the cells holding `msa`, `weights`, `res.x_pair` and `pair_freq`; `N` is
the number of sequences, `L` is `res.ncol`.  Mirrors the source
statement by statement; the result is the `out` container (or the
`IndexError` of the NaN clamp). -/
def write_msgpackH (L N : ℕ) (lam : ℚ) (msaR wR xR pR : ℕ) (h0 : Heap) :
    Heap × Except String MsgOut :=
  let msa := decodeMsa (h0.read msaR) N L
  let weights := decodeW (h0.read wR) N
  let xp := decodeT (h0.read xR) L
  let pf := decodeT (h0.read pR) L
  let Nij := calculate_Nij msa weights
  let a1 := h0.alloc ((trilRowwise L Nij).map (fun q => FVal.num q))
  let h1 := a1.2
  let nijList := trilRowwise L Nij
  let a2 := h1.alloc (List.replicate (L * (L - 1) / 2 * 400) (FVal.num 0))
  let mpR := a2.1
  let h2 := a2.2
  let h3 := ((pairList L).enum).foldl
    (fun hh pk =>
      hh.write mpR
        (setSeg (hh.read mpR) (pk.1 * 400)
          (block (fun a b => q_raw pf xp lam Nij pk.2.1 pk.2.2 a b)))) h2
  let a3 := h3.alloc (h3.read mpR)
  let flatR := a3.1
  let h4 := a3.2
  let flat0 := h4.read flatR
  let h5 := if flat0.any isNeg then h4.write flatR (flat0.map clampNeg) else h4
  let flat1 := h5.read flatR
  if flat1.any isNan then
    (h5, .error "IndexError: 2-dimensional boolean mask on 1-dimensional array")
  else
    (h5, .ok ⟨nijList, flat1⟩)

/-!
### The command-line driver `run_ccmpred.py`

The validation performed at the end of `parse_args` and the control flow
of `main` are modelled as a check on the parsed options and as the trace
of component calls `main` performs; `sys.exit(c)` terminates the trace.
The work done by each `ccm.*` call lives in modules outside the sources,
so the calls appear as abstract events; the code of the optimizer is
likewise abstract, and its returned status `ccm.algret['code']` is a
parameter of the trace.
-/

/-- The objective-function selector (`--ofn-pll` / `--ofn-cd`). -/
inductive Objfun where
  | pll
  | cd
deriving DecidableEq

/-- The optimizer selector (`--alg-lbfgs`, `--alg-cg`, `--alg-nd`,
`--alg-gd`, `--alg-ad`). -/
inductive Alg where
  | conjugate_gradients
  | lbfgs
  | gradient_descent
  | adam
  | numerical_differentiation
deriving DecidableEq

/-- The parsed options `main` consults for its control flow. -/
structure Opts where
  optimize : Bool
  initrawfile : Option String
  objfun : Objfun
  algorithm : Alg
  logo : Bool
  pdbfile : Option String
  matfile : Option String
  out_binary_raw_file : Option String
  omes : Bool
  mi : Bool
deriving DecidableEq

/-- The three `parser.error` checks at the end of `parse_args`, in
source order; `parser.error` prints a usage message and exits, modelled
as `Except.error`. -/
def parse_args_check (opt : Opts) : Except String Unit :=
  if opt.optimize = false ∧ opt.initrawfile = none then
    .error "--do-not-optimize is only supported when -i is specified"
  else if opt.objfun = .pll ∧ (opt.algorithm ≠ .conjugate_gradients ∧
      opt.algorithm ≠ .numerical_differentiation ∧ opt.algorithm ≠ .lbfgs) then
    .error "pseudo-log-likelihood needs conjugate gradients or LBFGS"
  else if opt.objfun = .cd ∧ (opt.algorithm ≠ .gradient_descent ∧
      opt.algorithm ≠ .adam) then
    .error "contrastive divergence needs gradient descent or ADAM"
  else
    .ok ()

/-- The component calls `main` performs, in order; `exitWith c` is
`sys.exit(c)`. -/
inductive Ev where
  | showLogo
  | setNumThreads
  | readAlignment
  | computeSequenceWeights
  | computeFrequencies
  | readPdb
  | computeOmes
  | computeMutualInfo
  | writeMatrix
  | specifyRegularization
  | initialisePotentials
  | minimize
  | computeContactMatrix
  | computeCorrection
  | writeBinaryRaw
  | usageError
  | exitWith (c : ℕ)
deriving DecidableEq

/-- The events of `main` up to and including the frequency stage and the
optional PDB read: logo, thread setup, `read_alignment`,
`compute_sequence_weights`, `compute_frequencies`, `read_pdb`. -/
def preTrace (opt : Opts) : List Ev :=
  (if opt.logo then [Ev.showLogo] else []) ++
  [Ev.setNumThreads, Ev.readAlignment, Ev.computeSequenceWeights,
    Ev.computeFrequencies] ++
  (if opt.pdbfile.isSome then [Ev.readPdb] else [])

/-- The trace of `main` after a successful `parse_args`, given the
status code `ccm.algret['code']` the optimizer would return. -/
def mainTrace (opt : Opts) (algretCode : ℤ) : List Ev :=
  preTrace opt ++
  (if opt.omes then [Ev.computeOmes, Ev.writeMatrix, Ev.exitWith 0]
   else if opt.mi then [Ev.computeMutualInfo, Ev.writeMatrix, Ev.exitWith 0]
   else
     [Ev.specifyRegularization, Ev.initialisePotentials] ++
     (if opt.optimize then [Ev.minimize] else []) ++
     (if opt.matfile.isSome then
        [Ev.computeContactMatrix, Ev.computeCorrection, Ev.writeMatrix]
      else []) ++
     (if opt.out_binary_raw_file.isSome then [Ev.writeBinaryRaw] else []) ++
     [Ev.exitWith
        (if opt.optimize = true ∧ algretCode < 0 then (-algretCode).toNat else 0)])

/-- The trace of a whole `main` invocation: `parse_args` runs first and
a `parser.error` prints a usage message and exits with status `2`
before anything else happens. -/
def mainFull (opt : Opts) (algretCode : ℤ) : List Ev :=
  match parse_args_check opt with
  | .error _ => [Ev.usageError, Ev.exitWith 2]
  | .ok _ => mainTrace opt algretCode

/-- The exit status of a trace: the first `sys.exit` reached. -/
def firstExit : List Ev → Option ℕ
  | [] => none
  | .exitWith c :: _ => some c
  | _ :: t => firstExit t

/-- The position of the pair `(i, j)` in the loop enumeration of
`write_msgpack`: the lengths of the completed rows for smaller `i`,
plus the offset of `j` within row `i`. -/
def pairRank (L i j : ℕ) : ℕ :=
  (((List.range (L - 1)).take i).map (fun t => L - (t + 1))).sum + (j - (i + 1))

/-- Strict lexicographic order on column pairs. -/
def lexLT (p q : ℕ × ℕ) : Prop :=
  p.1 < q.1 ∨ (p.1 = q.1 ∧ p.2 < q.2)

/-!
### Concrete inputs used by witnesses and counterexamples
-/

/-- A 3-sequence, 3-column alignment: columns 0 and 1 are never gapped,
column 2 is gapped in the last two sequences. -/
def msaA : List (List ℕ) := [[0, 0, 0], [0, 0, 20], [0, 0, 20]]

/-- Unit weights for `msaA`. -/
def wA : List ℚ := [1, 1, 1]

/-- The all-zero `[L, L, 21, 21]` tensor. -/
def zeroT : ℕ → ℕ → ℕ → ℕ → ℚ := fun _ _ _ _ => 0

/-- The all-minus-one `[L, L, 21, 21]` tensor. -/
def negT : ℕ → ℕ → ℕ → ℕ → ℚ := fun _ _ _ _ => -1

/-- A fitted-potentials record over `msaA`: three columns, zero pair
potentials. -/
def resA : CCMRes := ⟨3, zeroT⟩

/-- A 1-sequence, 2-column alignment whose first column is a gap, so
the non-gap pair count of the only column pair is zero. -/
def msaB : List (List ℕ) := [[20, 0]]

/-- Unit weight for `msaB`. -/
def wB : List ℚ := [1]

/-- Two columns, pair potentials all `-1`. -/
def resB : CCMRes := ⟨2, negT⟩

/-- Two columns, pair potentials all `0`. -/
def resB0 : CCMRes := ⟨2, zeroT⟩

/-- A valid default-style command line: optimize pseudo-likelihood with
LBFGS, no optional outputs. -/
def optRun : Opts :=
  ⟨true, none, .pll, .lbfgs, false, none, none, none, false, false⟩

/-- An invalid pairing: pseudo-likelihood with gradient descent. -/
def optBad : Opts :=
  ⟨true, none, .pll, .gradient_descent, false, none, none, none, false, false⟩

/-- A command line with `--compute-omes` set. -/
def optOmes : Opts :=
  ⟨true, none, .pll, .lbfgs, false, none, none, none, true, false⟩

/-!
### Helper lemmas: indexing concatenations of blocks
-/

/-- Element `r` of the `k`-th chunk of a `flatMap` sits at the flat index
"total length of the first `k` chunks, plus `r`". -/
theorem flatMap_getElem? {α β : Type} (f : α → List β) :
    ∀ (l : List α) (k r : ℕ) (x : α), l[k]? = some x → r < (f x).length →
      (l.flatMap f)[((l.take k).map (fun y => (f y).length)).sum + r]? = (f x)[r]?
  | [], k, r, x, hk, _ => by simp at hk
  | y :: t, 0, r, x, hk, hr => by
      simp only [List.getElem?_cons_zero, Option.some.injEq] at hk
      subst hk
      simp only [List.take_zero, List.map_nil, List.sum_nil, Nat.zero_add,
        List.flatMap_cons]
      exact List.getElem?_append_left hr
  | y :: t, k + 1, r, x, hk, hr => by
      simp only [List.getElem?_cons_succ] at hk
      have ih := flatMap_getElem? f t k r x hk hr
      simp only [List.take_succ_cons, List.map_cons, List.sum_cons,
        List.flatMap_cons]
      rw [Nat.add_assoc, List.getElem?_append_right (by omega)]
      simpa using ih

/-- When every chunk has the same length `n`, the first `k` chunks have
total length `n * k`. -/
theorem take_map_const_length_sum {α β : Type} (l : List α) (f : α → List β)
    (n k : ℕ) (x : α) (hlen : ∀ y, (f y).length = n) (hk : l[k]? = some x) :
    ((l.take k).map (fun y => (f y).length)).sum = k * n := by
  have hkl : k < l.length := (List.getElem?_eq_some_iff.mp hk).1
  have h1 : (l.take k).map (fun y => (f y).length) = List.replicate (l.take k).length n := by
    rw [← List.map_const']
    exact List.map_congr_left (fun a _ => hlen a)
  rw [h1, List.sum_const_nat, List.length_take, Nat.min_eq_left hkl.le]

/-- The length of a `flatMap`. -/
theorem flatMap_length {α β : Type} (l : List α) (f : α → List β) :
    (l.flatMap f).length = (l.map (fun y => (f y).length)).sum := by
  simp [List.flatMap, Function.comp_def]

/-- A `20 × 20` block has 400 entries. -/
theorem block_length (f : ℕ → ℕ → FVal) : (block f).length = 400 := by
  rw [block, flatMap_length]
  simp only [List.length_map, List.length_range, List.map_const']
  simp [List.sum_const_nat]

/-- Row-major indexing into a `20 × 20` block: the `(a, b)` entry is at
offset `a * 20 + b`. -/
theorem block_getElem? (f : ℕ → ℕ → FVal) (a b : ℕ) (ha : a < 20) (hb : b < 20) :
    (block f)[a * 20 + b]? = some (f a b) := by
  have hk : (List.range 20)[a]? = some a := List.getElem?_range ha
  have hr : b < ((List.range 20).map (fun b => f a b)).length := by
    simpa using hb
  have h := flatMap_getElem? (fun a => (List.range 20).map (fun b => f a b))
    (List.range 20) a b a hk hr
  rw [take_map_const_length_sum (List.range 20)
    (fun a => (List.range 20).map (fun b => f a b)) 20 a a (fun y => by simp) hk] at h
  unfold block
  rw [h, List.getElem?_map, List.getElem?_range hb]
  rfl

/-- Sum over `List.range` is sum over `Finset.range`. -/
theorem list_range_map_sum (n : ℕ) (f : ℕ → ℕ) :
    ((List.range n).map f).sum = ∑ i ∈ Finset.range n, f i := rfl

/-- `pairRank` finds `(i, j)` in the loop enumeration. -/
theorem pairList_getElem? (L i j : ℕ) (hij : i < j) (hjL : j < L) :
    (pairList L)[pairRank L i j]? = some (i, j) := by
  have hk : (List.range (L - 1))[i]? = some i := List.getElem?_range (by omega)
  have hr : j - (i + 1) <
      ((List.range (L - (i + 1))).map (fun k => (i, i + 1 + k))).length := by
    simp only [List.length_map, List.length_range]
    omega
  have h := flatMap_getElem?
    (fun t => (List.range (L - (t + 1))).map (fun k => (t, t + 1 + k)))
    (List.range (L - 1)) i (j - (i + 1)) i hk hr
  simp only [List.length_map, List.length_range] at h
  rw [List.getElem?_map, List.getElem?_range (by omega : j - (i + 1) < L - (i + 1))] at h
  simp only [Option.map_some'] at h
  have he : i + 1 + (j - (i + 1)) = j := by omega
  rw [he] at h
  unfold pairList pairRank
  exact h

/-- Twice the number of loop iterations of `write_msgpack` is
`L * (L - 1)`. -/
theorem pairList_length_mul_two (L : ℕ) : (pairList L).length * 2 = L * (L - 1) := by
  rw [pairList, flatMap_length]
  simp only [List.length_map, List.length_range]
  rw [list_range_map_sum]
  have h1 : ∀ i ∈ Finset.range (L - 1), L - (i + 1) = L - 1 - 1 - i + 1 := by
    intro i hi
    simp only [Finset.mem_range] at hi
    omega
  rw [Finset.sum_congr rfl h1, Finset.sum_range_reflect (fun t => t + 1) (L - 1)]
  have h2 : (∑ j ∈ Finset.range (L - 1), (j + 1)) =
      (∑ j ∈ Finset.range (L - 1), j) + (L - 1) := by
    rw [Finset.sum_add_distrib, Finset.sum_const, Finset.card_range, smul_eq_mul,
      mul_one]
  rw [h2, Nat.add_mul, Finset.sum_range_id_mul_two]
  cases L with
  | zero => simp
  | succ m =>
      cases m with
      | zero => simp
      | succ k =>
          simp only [Nat.succ_sub_one]
          ring

/-- The number of loop iterations is `L * (L - 1) / 2`. -/
theorem pairList_length (L : ℕ) : (pairList L).length = L * (L - 1) / 2 := by
  have h := pairList_length_mul_two L
  omega

/-- The flat position of the model probability computed for pair
`(i, j)` and symbols `(a, b)`. -/
theorem model_prob_flat_getElem? (L : ℕ) (pf xp : ℕ → ℕ → ℕ → ℕ → ℚ)
    (lam : ℚ) (Nij : ℕ → ℕ → ℚ) (i j a b : ℕ)
    (hij : i < j) (hjL : j < L) (ha : a < 20) (hb : b < 20) :
    (model_prob_flat L pf xp lam Nij)[pairRank L i j * 400 + (a * 20 + b)]? =
      some (q_raw pf xp lam Nij i j a b) := by
  have hk := pairList_getElem? L i j hij hjL
  have hr : a * 20 + b <
      (block (fun a b => q_raw pf xp lam Nij (i, j).1 (i, j).2 a b)).length := by
    rw [block_length]; omega
  have h := flatMap_getElem?
    (fun p => block (fun a b => q_raw pf xp lam Nij p.1 p.2 a b))
    (pairList L) (pairRank L i j) (a * 20 + b) (i, j) hk hr
  rw [take_map_const_length_sum (pairList L) _ 400 (pairRank L i j) (i, j)
    (fun y => block_length _) hk] at h
  rw [model_prob_flat, h]
  exact block_getElem? _ a b ha hb

/-- The total length of the flattened model-probability array. -/
theorem model_prob_flat_length (L : ℕ) (pf xp : ℕ → ℕ → ℕ → ℕ → ℚ)
    (lam : ℚ) (Nij : ℕ → ℕ → ℚ) :
    (model_prob_flat L pf xp lam Nij).length = 400 * (L * (L - 1) / 2) := by
  rw [model_prob_flat, flatMap_length]
  have h1 : (pairList L).map
      (fun p => (block (fun a b => q_raw pf xp lam Nij p.1 p.2 a b)).length) =
      List.replicate (pairList L).length 400 := by
    rw [← List.map_const']
    exact List.map_congr_left (fun p _ => block_length _)
  rw [h1, List.sum_const_nat, pairList_length]
  ring

/-- The serialized lower triangle has `L * (L - 1) / 2` entries. -/
theorem trilRowwise_length (L : ℕ) (Nij : ℕ → ℕ → ℚ) :
    (trilRowwise L Nij).length = L * (L - 1) / 2 := by
  rw [trilRowwise, flatMap_length]
  simp only [List.length_map, List.length_range]
  rw [list_range_map_sum]
  exact Finset.sum_range_id L

/-- Indexing the serialized lower triangle: row `i` starts after the
`i * (i - 1) / 2` entries of the shorter rows before it. -/
theorem trilRowwise_getElem? (L : ℕ) (Nij : ℕ → ℕ → ℚ) (i j : ℕ)
    (hji : j < i) (hiL : i < L) :
    (trilRowwise L Nij)[i * (i - 1) / 2 + j]? = some (Nij i j) := by
  have hk : (List.range L)[i]? = some i := List.getElem?_range hiL
  have hr : j < ((List.range i).map (fun j => Nij i j)).length := by
    simpa using hji
  have h := flatMap_getElem? (fun i => (List.range i).map (fun j => Nij i j))
    (List.range L) i j i hk hr
  simp only [List.length_map, List.length_range, List.take_range,
    Nat.min_eq_left hiL.le] at h
  rw [list_range_map_sum, Finset.sum_range_id i] at h
  rw [List.getElem?_map, List.getElem?_range hji] at h
  unfold trilRowwise
  simpa using h

/-- Whether or not the `any` guard fires, the negative-entry pass leaves
exactly the elementwise clamp of the array. -/
theorem clamp_pass (mp : List FVal) :
    (if mp.any isNeg then mp.map clampNeg else mp) = mp.map clampNeg := by
  split
  · rfl
  · next hc =>
      have hall : ∀ v ∈ mp, clampNeg v = v := by
        intro v hv
        have hvn : ¬ isNeg v = true := by
          intro hvn
          exact hc (List.any_eq_true.mpr ⟨v, hv, hvn⟩)
        simp [clampNeg, hvn]
      exact ((List.map_congr_left hall).trans (List.map_id mp)).symm

/-- What a successful `write_msgpack` returns: the row-major lower
triangle of `Nij`, and the flattened clamped model probabilities. -/
theorem write_msgpack_ok (res : CCMRes) (msa : List (List ℕ)) (weights : List ℚ)
    (pair_freq : ℕ → ℕ → ℕ → ℕ → ℚ) (lam : ℚ) (out : MsgOut)
    (h : write_msgpack res msa weights pair_freq lam = .ok out) :
    out.N_ij = trilRowwise res.ncol (calculate_Nij msa weights) ∧
    out.q_ij = (model_prob_flat res.ncol pair_freq res.x_pair lam
      (calculate_Nij msa weights)).map clampNeg := by
  unfold write_msgpack at h
  simp only [clamp_pass] at h
  split at h
  · exact absurd h (by simp)
  · injection h with h2
    subst h2
    exact ⟨rfl, rfl⟩

/-- Summing a one-hot indicator over the first `m` states catches the
symbol exactly when it is below `m`. -/
theorem sum_ite_eq_range (x : ℕ) (w : ℚ) (m : ℕ) :
    (∑ a ∈ Finset.range m, if x = a then w else 0) = if x < m then w else 0 := by
  rw [Finset.sum_ite_eq]
  simp [Finset.mem_range]

/-- Unfolding `single_counts` over the head sequence. -/
theorem single_counts_cons (s : List ℕ) (t : List (List ℕ)) (w : ℚ)
    (ws : List ℚ) (i a : ℕ) :
    single_counts (s :: t) (w :: ws) i a =
      (if s.getD i 21 = a then w else 0) + single_counts t ws i a := by
  simp [single_counts]

/-- Unfolding `pair_counts` over the head sequence. -/
theorem pair_counts_cons (s : List ℕ) (t : List (List ℕ)) (w : ℚ)
    (ws : List ℚ) (i j a b : ℕ) :
    pair_counts (s :: t) (w :: ws) i j a b =
      (if s.getD i 21 = a ∧ s.getD j 21 = b then w else 0) +
        pair_counts t ws i j a b := by
  simp [pair_counts]

/-- Double one-hot sum over the `20 × 20` amino-acid block. -/
theorem double_sum_ite (x y : ℕ) (w : ℚ) :
    (∑ a ∈ Finset.range 20, ∑ b ∈ Finset.range 20,
        if x = a ∧ y = b then w else 0) =
      if x < 20 ∧ y < 20 then w else 0 := by
  have hinner : ∀ a, (∑ b ∈ Finset.range 20, if x = a ∧ y = b then w else 0) =
      if x = a then (if y < 20 then w else 0) else 0 := by
    intro a
    by_cases hxa : x = a
    · simp only [hxa, true_and, if_pos rfl]
      exact sum_ite_eq_range y w 20
    · simp [hxa]
  rw [Finset.sum_congr rfl (fun a _ => hinner a), sum_ite_eq_range]
  exact (ite_and _ _ _ _).symm

/-- `calculate_Ni` is the weighted count of sequences whose symbol at
column `i` is one of the 20 amino acids (gap state discarded). -/
theorem calculate_Ni_nongap (msa : List (List ℕ)) (weights : List ℚ) (i : ℕ) :
    calculate_Ni msa weights i =
      (List.zipWith (fun s w => if s.getD i 21 < 20 then w else 0)
        msa weights).sum := by
  induction msa generalizing weights with
  | nil => simp [calculate_Ni, single_counts]
  | cons s t ih =>
      cases weights with
      | nil => simp [calculate_Ni, single_counts]
      | cons w ws =>
          rw [calculate_Ni]
          simp only [single_counts_cons]
          rw [Finset.sum_add_distrib, sum_ite_eq_range]
          rw [List.zipWith_cons_cons, List.sum_cons]
          exact congrArg _ (ih ws)

/-- `calculate_Nij` is the weighted count of sequences whose symbols at
both columns are among the 20 amino acids (gap state discarded). -/
theorem calculate_Nij_nongap (msa : List (List ℕ)) (weights : List ℚ) (i j : ℕ) :
    calculate_Nij msa weights i j =
      (List.zipWith
        (fun s w => if s.getD i 21 < 20 ∧ s.getD j 21 < 20 then w else 0)
        msa weights).sum := by
  induction msa generalizing weights with
  | nil => simp [calculate_Nij, pair_counts]
  | cons s t ih =>
      cases weights with
      | nil => simp [calculate_Nij, pair_counts]
      | cons w ws =>
          rw [calculate_Nij]
          simp only [pair_counts_cons]
          have hsplit : (∑ a ∈ Finset.range 20, ∑ b ∈ Finset.range 20,
              ((if s.getD i 21 = a ∧ s.getD j 21 = b then w else 0) +
                pair_counts t ws i j a b)) =
              (∑ a ∈ Finset.range 20, ∑ b ∈ Finset.range 20,
                if s.getD i 21 = a ∧ s.getD j 21 = b then w else 0) +
              (∑ a ∈ Finset.range 20, ∑ b ∈ Finset.range 20,
                pair_counts t ws i j a b) := by
            rw [← Finset.sum_add_distrib]
            exact Finset.sum_congr rfl (fun a _ => Finset.sum_add_distrib)
          rw [hsplit, double_sum_ite]
          rw [List.zipWith_cons_cons, List.sum_cons]
          exact congrArg _ (ih ws)

/-- Pairwise order on a concatenation of chunks: within each chunk, and
across chunks following the order of the outer list. -/
theorem flatMap_pairwise {α β : Type} (R : β → β → Prop) (S : α → α → Prop) :
    ∀ (l : List α) (f : α → List β), List.Pairwise S l →
      (∀ x ∈ l, List.Pairwise R (f x)) →
      (∀ x y, S x y → ∀ u ∈ f x, ∀ v ∈ f y, R u v) →
      List.Pairwise R (l.flatMap f)
  | [], f, _, _, _ => by simp
  | x :: t, f, hl, hf, hcross => by
      rw [List.flatMap_cons, List.pairwise_append]
      refine ⟨hf x (by simp), ?_, ?_⟩
      · exact flatMap_pairwise R S t f hl.tail
          (fun y hy => hf y (List.mem_cons_of_mem x hy)) hcross
      · intro u hu v hv
        rcases List.mem_flatMap.mp hv with ⟨y, hy, hvy⟩
        exact hcross x y (List.rel_of_pairwise_cons hl hy) u hu v hvy

/-- The loop of `write_msgpack` enumerates the pairs in strictly
increasing lexicographic order. -/
theorem pairList_pairwise (L : ℕ) : List.Pairwise lexLT (pairList L) := by
  refine flatMap_pairwise lexLT (· < ·) (List.range (L - 1)) _
    (List.pairwise_lt_range (L - 1)) ?_ ?_
  · intro i _
    rw [List.pairwise_map]
    refine List.Pairwise.imp ?_ (List.pairwise_lt_range (L - (i + 1)))
    intro k1 k2 hk
    exact Or.inr ⟨rfl, by omega⟩
  · intro x y hxy u hu v hv
    rcases List.mem_map.mp hu with ⟨k1, _, hu1⟩
    rcases List.mem_map.mp hv with ⟨k2, _, hv1⟩
    subst hu1
    subst hv1
    exact Or.inl hxy

/-- The loop of `write_msgpack` enumerates exactly the unordered column
pairs `(i, j)` with `i < j < L`. -/
theorem pairList_mem (L : ℕ) (p : ℕ × ℕ) :
    p ∈ pairList L ↔ p.1 < p.2 ∧ p.2 < L := by
  constructor
  · intro hp
    rcases List.mem_flatMap.mp hp with ⟨i, hi, hpi⟩
    rcases List.mem_map.mp hpi with ⟨k, hk, hpk⟩
    rw [List.mem_range] at hi hk
    subst hpk
    constructor <;> simp <;> omega
  · rintro ⟨h1, h2⟩
    refine List.mem_flatMap.mpr ⟨p.1, ?_, ?_⟩
    · rw [List.mem_range]
      omega
    · refine List.mem_map.mpr ⟨p.2 - (p.1 + 1), ?_, ?_⟩
      · rw [List.mem_range]
        omega
      · have hp2 : p.1 + 1 + (p.2 - (p.1 + 1)) = p.2 := by omega
        rw [hp2]

/-!
### Helper lemmas: heap frame reasoning
-/

/-- Setting at or beyond position `n` does not change the first `n`
elements. -/
theorem take_set_of_le {α : Type} (v : α) :
    ∀ (l : List α) (n r : ℕ), n ≤ r → (l.set r v).take n = l.take n
  | [], _, _, _ => by simp
  | x :: t, 0, r, _ => by simp
  | x :: t, n + 1, 0, h => by omega
  | x :: t, n + 1, r + 1, h => by
      simp only [List.set_cons_succ, List.take_succ_cons]
      rw [take_set_of_le v t n r (by omega)]

/-- Allocation does not change the existing cells. -/
theorem alloc_take (h : Heap) (v : List FVal) (n : ℕ) (hn : n ≤ h.cells.length) :
    ((h.alloc v).2).cells.take n = h.cells.take n := by
  simp only [Heap.alloc]
  exact List.take_append_of_le_length hn

/-- Allocation appends one cell. -/
theorem alloc_length (h : Heap) (v : List FVal) :
    ((h.alloc v).2).cells.length = h.cells.length + 1 := by
  simp [Heap.alloc]

/-- Writing at or beyond position `n` does not change the first `n`
cells. -/
theorem write_take (h : Heap) (r : ℕ) (v : List FVal) (n : ℕ) (hn : n ≤ r) :
    ((h.write r v).cells.take n) = h.cells.take n := by
  simp only [Heap.write]
  exact take_set_of_le v h.cells n r hn

/-- Writing preserves the number of cells. -/
theorem write_length (h : Heap) (r : ℕ) (v : List FVal) :
    (h.write r v).cells.length = h.cells.length := by
  simp [Heap.write]

/-- A fold whose every step preserves the first `n` cells preserves the
first `n` cells. -/
theorem foldl_step_take {γ : Type} (n : ℕ) (step : Heap → γ → Heap)
    (hs : ∀ hh x, (step hh x).cells.take n = hh.cells.take n) :
    ∀ (l : List γ) (hh : Heap),
      ((l.foldl step hh).cells.take n) = hh.cells.take n
  | [], hh => rfl
  | x :: t, hh => by
      rw [List.foldl_cons, foldl_step_take n step hs t (step hh x), hs hh x]

/-- A fold whose every step preserves the number of cells preserves the
number of cells. -/
theorem foldl_step_length {γ : Type} (step : Heap → γ → Heap)
    (hs : ∀ hh x, (step hh x).cells.length = hh.cells.length) :
    ∀ (l : List γ) (hh : Heap),
      (l.foldl step hh).cells.length = hh.cells.length
  | [], hh => rfl
  | x :: t, hh => by
      rw [List.foldl_cons, foldl_step_length step hs t (step hh x), hs hh x]

/-!
### Helper lemmas: the `main` trace
-/

/-- The events before the alternative-score branch contain no exit. -/
theorem firstExit_preTrace (opt : Opts) (rest : List Ev) :
    firstExit (preTrace opt ++ rest) = firstExit rest := by
  unfold preTrace
  cases opt.logo <;> cases opt.pdbfile <;> simp [firstExit]

/-- The optimizer never runs before the alternative-score branch. -/
theorem minimize_notMem_preTrace (opt : Opts) : Ev.minimize ∉ preTrace opt := by
  unfold preTrace
  cases opt.logo <;> cases opt.pdbfile <;> simp

/-!
### Evaluation lemmas for the IEEE value model and the concrete inputs
-/

/-- Finite times finite. -/
theorem fmul_num (a b : ℚ) : fmul (.num a) (.num b) = .num (a * b) := rfl

/-- Finite minus finite. -/
theorem fsub_num (a b : ℚ) : fsub (.num a) (.num b) = .num (a - b) := rfl

/-- Finite divided by a nonzero finite value. -/
theorem fdiv_num (a b : ℚ) (hb : b ≠ 0) : fdiv (.num a) (.num b) = .num (a / b) := by
  have h0 : fdiv (FVal.num a) (FVal.num b) =
      if b = 0 then (if 0 < a then FVal.pinf else if a < 0 then FVal.ninf else FVal.nan)
      else FVal.num (a / b) := rfl
  rw [h0, if_neg hb]

/-- A negative finite value divided by zero is `-inf`. -/
theorem fdiv_num_zero_of_neg (a : ℚ) (ha : a < 0) :
    fdiv (.num a) (.num 0) = .ninf := by
  have h0 : fdiv (FVal.num a) (FVal.num 0) =
      if (0 : ℚ) = 0 then (if 0 < a then FVal.pinf else if a < 0 then FVal.ninf else FVal.nan)
      else FVal.num (a / 0) := rfl
  rw [h0, if_pos rfl, if_neg (by linarith), if_pos ha]

/-- Zero divided by zero is NaN. -/
theorem fdiv_num_zero_zero : fdiv (.num 0) (.num 0) = .nan := by
  have h0 : fdiv (FVal.num 0) (FVal.num 0) =
      if (0 : ℚ) = 0 then
        (if (0 : ℚ) < 0 then FVal.pinf else if (0 : ℚ) < 0 then FVal.ninf else FVal.nan)
      else FVal.num (0 / 0) := rfl
  rw [h0, if_pos rfl, if_neg (lt_irrefl (0 : ℚ)), if_neg (lt_irrefl (0 : ℚ))]

/-- When the pair count is nonzero, the computed model probability is the
finite value of the claimed formula. -/
theorem q_raw_num (pair_freq x_pair : ℕ → ℕ → ℕ → ℕ → ℚ) (lam : ℚ)
    (Nij : ℕ → ℕ → ℚ) (i j a b : ℕ) (h : Nij i j ≠ 0) :
    q_raw pair_freq x_pair lam Nij i j a b =
      .num (pair_freq i j a b - x_pair i j a b * lam / Nij i j) := by
  rw [q_raw, fmul_num, fdiv_num _ _ h, fsub_num]

/-- Clamping a non-negative finite value is the identity. -/
theorem clampNeg_num_zero : clampNeg (.num 0) = .num 0 := by
  norm_num [clampNeg, isNeg]

/-- Pair counts of `msaA`: columns `0` and `1` are never gapped. -/
theorem NijA01 : calculate_Nij msaA wA 0 1 = 3 := by
  norm_num [calculate_Nij, pair_counts, msaA, wA, Finset.sum_range_succ]

/-- Pair counts of `msaA`, lower-triangle entry `(1, 0)`. -/
theorem NijA10 : calculate_Nij msaA wA 1 0 = 3 := by
  norm_num [calculate_Nij, pair_counts, msaA, wA, Finset.sum_range_succ]

/-- Pair counts of `msaA`: column `2` is gapped in two sequences. -/
theorem NijA02 : calculate_Nij msaA wA 0 2 = 1 := by
  norm_num [calculate_Nij, pair_counts, msaA, wA, Finset.sum_range_succ]

/-- Pair counts of `msaA`, lower-triangle entry `(2, 0)`. -/
theorem NijA20 : calculate_Nij msaA wA 2 0 = 1 := by
  norm_num [calculate_Nij, pair_counts, msaA, wA, Finset.sum_range_succ]

/-- Pair counts of `msaA`, entry `(1, 2)`. -/
theorem NijA12 : calculate_Nij msaA wA 1 2 = 1 := by
  norm_num [calculate_Nij, pair_counts, msaA, wA, Finset.sum_range_succ]

/-- Pair counts of `msaA`, lower-triangle entry `(2, 1)`. -/
theorem NijA21 : calculate_Nij msaA wA 2 1 = 1 := by
  norm_num [calculate_Nij, pair_counts, msaA, wA, Finset.sum_range_succ]

/-- The non-gap pair count of `msaB` is zero: column `0` is a gap. -/
theorem NijB01 : calculate_Nij msaB wB 0 1 = 0 := by
  norm_num [calculate_Nij, pair_counts, msaB, wB, Finset.sum_range_succ]

/-- The non-gap pair count of `msaB`, entry `(1, 0)`. -/
theorem NijB10 : calculate_Nij msaB wB 1 0 = 0 := by
  norm_num [calculate_Nij, pair_counts, msaB, wB, Finset.sum_range_succ]
  decide

/-- On `msaA` with zero potentials and zero pair frequencies, every
model probability is exactly `0`. -/
theorem model_prob_flat_A :
    model_prob_flat resA.ncol zeroT resA.x_pair 1 (calculate_Nij msaA wA) =
      List.replicate 1200 (.num 0) := by
  have hb : ∀ i j : ℕ, calculate_Nij msaA wA i j ≠ 0 →
      (block (fun a b =>
        q_raw zeroT resA.x_pair 1 (calculate_Nij msaA wA) i j a b)) =
        List.replicate 400 (.num 0) := by
    intro i j hNij
    have hq : ∀ a b : ℕ,
        q_raw zeroT resA.x_pair 1 (calculate_Nij msaA wA) i j a b = .num 0 := by
      intro a b
      rw [q_raw_num zeroT resA.x_pair 1 _ i j a b hNij]
      norm_num [zeroT, resA]
    rw [congrArg block (funext fun a => funext fun b => hq a b)]
    rfl
  have he : pairList resA.ncol = [(0, 1), (0, 2), (1, 2)] := by decide
  rw [model_prob_flat, he]
  simp only [List.flatMap_cons, List.flatMap_nil, List.append_nil]
  rw [hb 0 1 (by rw [NijA01]; norm_num), hb 0 2 (by rw [NijA02]; norm_num),
    hb 1 2 (by rw [NijA12]; norm_num)]
  rfl

/-- `write_msgpack` on `msaA` with zero potentials and frequencies
succeeds; the serialized `N_ij` is the ascending-row lower triangle
`[3, 1, 1]`. -/
theorem write_msgpack_A :
    write_msgpack resA msaA wA zeroT 1 =
      .ok ⟨[3, 1, 1], List.replicate 1200 (.num 0)⟩ := by
  unfold write_msgpack
  simp only [clamp_pass]
  rw [model_prob_flat_A, List.map_replicate, clampNeg_num_zero]
  rw [if_neg (by simp [List.any_eq_true, List.mem_replicate, isNan])]
  have htr : trilRowwise resA.ncol (calculate_Nij msaA wA) = [3, 1, 1] := by
    have h0 : trilRowwise resA.ncol (calculate_Nij msaA wA) =
        [calculate_Nij msaA wA 1 0, calculate_Nij msaA wA 2 0,
          calculate_Nij msaA wA 2 1] := rfl
    rw [h0, NijA10, NijA20, NijA21]
  rw [htr]

/-- On `msaB` with pair potentials `-1` and zero pair frequencies, the
zero pair count sends every model probability to `+inf`. -/
theorem model_prob_flat_B :
    model_prob_flat resB.ncol zeroT resB.x_pair 1 (calculate_Nij msaB wB) =
      List.replicate 400 .pinf := by
  have hq : ∀ a b : ℕ,
      q_raw zeroT resB.x_pair 1 (calculate_Nij msaB wB) 0 1 a b = .pinf := by
    intro a b
    rw [q_raw]
    rw [fmul_num]
    have hx : resB.x_pair 0 1 a b * 1 = -1 := by norm_num [resB, negT]
    rw [hx, NijB01, fdiv_num_zero_of_neg (-1) (by norm_num)]
    rfl
  have he : pairList resB.ncol = [(0, 1)] := by decide
  rw [model_prob_flat, he]
  simp only [List.flatMap_cons, List.flatMap_nil, List.append_nil]
  rw [congrArg block (funext fun a => funext fun b => hq a b)]
  rfl

/-- `write_msgpack` on `msaB` with pair potentials `-1`: the call
succeeds and serializes `+inf` — a non-finite value — in every `q_ij`
cell, because `np.isnan(+inf)` is false and `+inf < 0` is false. -/
theorem write_msgpack_B :
    write_msgpack resB msaB wB zeroT 1 =
      .ok ⟨[0], List.replicate 400 .pinf⟩ := by
  unfold write_msgpack
  simp only [clamp_pass]
  rw [model_prob_flat_B, List.map_replicate]
  rw [show clampNeg .pinf = .pinf from rfl]
  rw [if_neg (by simp [List.any_eq_true, List.mem_replicate, isNan])]
  have htr : trilRowwise resB.ncol (calculate_Nij msaB wB) = [0] := by
    have h0 : trilRowwise resB.ncol (calculate_Nij msaB wB) =
        [calculate_Nij msaB wB 1 0] := rfl
    rw [h0, NijB10]
  rw [htr]

/-- On `msaB` with zero pair potentials, the zero pair count makes every
model probability `0/0 = NaN`. -/
theorem model_prob_flat_B0 :
    model_prob_flat resB0.ncol zeroT resB0.x_pair 1 (calculate_Nij msaB wB) =
      List.replicate 400 .nan := by
  have hq : ∀ a b : ℕ,
      q_raw zeroT resB0.x_pair 1 (calculate_Nij msaB wB) 0 1 a b = .nan := by
    intro a b
    rw [q_raw]
    rw [fmul_num]
    have hx : resB0.x_pair 0 1 a b * 1 = 0 := by norm_num [resB0, zeroT]
    rw [hx, NijB01, fdiv_num_zero_zero]
    rfl
  have he : pairList resB0.ncol = [(0, 1)] := by decide
  rw [model_prob_flat, he]
  simp only [List.flatMap_cons, List.flatMap_nil, List.append_nil]
  rw [congrArg block (funext fun a => funext fun b => hq a b)]
  rfl

/-- `write_msgpack` on `msaB` with zero pair potentials: every model
probability is NaN, so the NaN-clamp's mismatched boolean mask raises
and the call fails. -/
theorem write_msgpack_B0 :
    write_msgpack resB0 msaB wB zeroT 1 =
      .error "IndexError: 2-dimensional boolean mask on 1-dimensional array" := by
  unfold write_msgpack
  simp only [clamp_pass]
  rw [model_prob_flat_B0, List.map_replicate]
  rw [show clampNeg .nan = .nan from rfl]
  rw [if_pos (by simp [List.any_eq_true, List.mem_replicate, isNan])]

/-!
### The claims
-/

/-- C1: for every alignment, weight vector, fitted potentials and
pair-frequency tensor, `write_msgpack` computes, for each unordered
column pair `(i, j)` with `i < j` and non-gap symbols `a, b < 20`, the
model probability entry
`q_ij[a,b] = pair_freq[i,j,a,b] - x_pair[i,j,a,b] * lambda_pair / Nij[i,j]`
at its position in the flattened `model_prob` array, where `Nij[i,j]` is
the weighted pair count restricted to non-gap states.  Stated for
`Nij[i,j] ≠ 0`, where the division denotes a finite value. -/
theorem C1_model_probability_formula (res : CCMRes) (msa : List (List ℕ))
    (weights : List ℚ) (pair_freq : ℕ → ℕ → ℕ → ℕ → ℚ) (lam : ℚ)
    (i j a b : ℕ) (hij : i < j) (hjL : j < res.ncol) (ha : a < 20)
    (hb : b < 20) (hNij : calculate_Nij msa weights i j ≠ 0) :
    (model_prob_flat res.ncol pair_freq res.x_pair lam
        (calculate_Nij msa weights))[pairRank res.ncol i j * 400 + (a * 20 + b)]? =
      some (.num (pair_freq i j a b -
        res.x_pair i j a b * lam / calculate_Nij msa weights i j)) ∧
    calculate_Nij msa weights i j =
      (List.zipWith
        (fun s w => if s.getD i 21 < 20 ∧ s.getD j 21 < 20 then w else 0)
        msa weights).sum := by
  refine ⟨?_, calculate_Nij_nongap msa weights i j⟩
  rw [model_prob_flat_getElem? res.ncol pair_freq res.x_pair lam _ i j a b
    hij hjL ha hb, q_raw_num _ _ _ _ i j a b hNij]

/-- Witness for C1 at a concrete input: the first entry of the model
probability array of `msaA` is `0 - 0 * 1 / 3 = 0`. -/
theorem C1_model_probability_formula_witness :
    ((0 : ℕ) < 1 ∧ 1 < resA.ncol ∧ (0 : ℕ) < 20 ∧
      calculate_Nij msaA wA 0 1 ≠ 0) ∧
    (model_prob_flat resA.ncol zeroT resA.x_pair 1
        (calculate_Nij msaA wA))[pairRank resA.ncol 0 1 * 400 + (0 * 20 + 0)]? =
      some (.num (zeroT 0 1 0 0 -
        resA.x_pair 0 1 0 0 * 1 / calculate_Nij msaA wA 0 1)) :=
  ⟨⟨by decide, by decide, by decide, by rw [NijA01]; norm_num⟩,
   (C1_model_probability_formula resA msaA wA zeroT 1 0 1 0 0 (by decide)
     (by decide) (by decide) (by decide) (by rw [NijA01]; norm_num)).1⟩

/-- C2 (the claim is right, the code has a bug): with `Nij[0,1] = 0` and
pair potential `-1`, `write_msgpack` completes but serializes `+inf`
(non-finite, neither negative nor NaN, hence never clamped) in every
`q_ij` cell; with pair potential `0` every entry is `0/0 = NaN` and the
mismatched 2-dimensional NaN mask applied to the 1-dimensional flattened
array makes the call raise instead of clamping. -/
theorem C2_clamp_code_bug :
    write_msgpack resB msaB wB zeroT 1 =
      .ok ⟨[0], List.replicate 400 .pinf⟩ ∧
    FVal.pinf ∈ (MsgOut.mk [0] (List.replicate 400 .pinf)).q_ij ∧
    write_msgpack resB0 msaB wB zeroT 1 =
      .error "IndexError: 2-dimensional boolean mask on 1-dimensional array" :=
  ⟨write_msgpack_B, by simp [List.mem_replicate], write_msgpack_B0⟩

/-- C3 counterexample: on `msaA`, `write_msgpack` serializes
`N_ij = [Nij(1,0), Nij(2,0), Nij(2,1)] = [3, 1, 1]` — rows ascending —
while the claim's largest-row-first enumeration would give `[1, 1, 3]`. -/
theorem C3_counterexample :
    write_msgpack resA msaA wA zeroT 1 =
      .ok ⟨[3, 1, 1], List.replicate 1200 (.num 0)⟩ ∧
    (MsgOut.mk [3, 1, 1] (List.replicate 1200 (.num 0))).N_ij ≠
      trilRowwiseLargestFirst resA.ncol (calculate_Nij msaA wA) := by
  refine ⟨write_msgpack_A, ?_⟩
  have h0 : trilRowwiseLargestFirst resA.ncol (calculate_Nij msaA wA) =
      [calculate_Nij msaA wA 2 0, calculate_Nij msaA wA 2 1,
        calculate_Nij msaA wA 1 0] := rfl
  rw [h0, NijA20, NijA21, NijA10]
  show ([3, 1, 1] : List ℚ) ≠ [1, 1, 3]
  norm_num

/-- C3 amended: the serialized `N_ij` is a sequence of length
`L(L-1)/2` holding the strictly-lower-triangular `Nij` values enumerated
row-wise with the row index `i` ascending from the smallest index,
emitting for each row `i` the entries with column `j < i`: entry `(i,j)`
sits at position `i(i-1)/2 + j`. -/
theorem C3_N_ij_layout (res : CCMRes) (msa : List (List ℕ)) (weights : List ℚ)
    (pair_freq : ℕ → ℕ → ℕ → ℕ → ℚ) (lam : ℚ) (out : MsgOut)
    (h : write_msgpack res msa weights pair_freq lam = .ok out) :
    out.N_ij.length = res.ncol * (res.ncol - 1) / 2 ∧
    ∀ i j : ℕ, j < i → i < res.ncol →
      out.N_ij[i * (i - 1) / 2 + j]? = some (calculate_Nij msa weights i j) := by
  obtain ⟨hn, -⟩ := write_msgpack_ok res msa weights pair_freq lam out h
  constructor
  · rw [hn, trilRowwise_length]
  · intro i j hji hiL
    rw [hn, trilRowwise_getElem? res.ncol _ i j hji hiL]

/-- Witness for the amended C3 on `msaA`: length `3` and entry `(1, 0)`
at position `0`. -/
theorem C3_N_ij_layout_witness :
    ((MsgOut.mk [3, 1, 1] (List.replicate 1200 (.num 0))).N_ij.length =
      resA.ncol * (resA.ncol - 1) / 2) ∧
    (MsgOut.mk [3, 1, 1] (List.replicate 1200 (.num 0))).N_ij[1 * (1 - 1) / 2 + 0]? =
      some (calculate_Nij msaA wA 1 0) :=
  ⟨(C3_N_ij_layout resA msaA wA zeroT 1 _ write_msgpack_A).1,
   (C3_N_ij_layout resA msaA wA zeroT 1 _ write_msgpack_A).2 1 0
     (by decide) (by decide)⟩

/-- C4: `calculate_Ni` and `calculate_Nij` reduce the `[L,21]` and
`[L,L,21,21]` count arrays to amino-acid-only quantities by summing only
over symbol states `0..19`, discarding the gap state `20` entirely: the
result is the weighted count of sequences whose symbols at the involved
columns are below `20`. -/
theorem C4_reduction_discards_gap (msa : List (List ℕ)) (weights : List ℚ)
    (i j : ℕ) :
    calculate_Ni msa weights i =
      (List.zipWith (fun s w => if s.getD i 21 < 20 then w else 0)
        msa weights).sum ∧
    calculate_Nij msa weights i j =
      (List.zipWith
        (fun s w => if s.getD i 21 < 20 ∧ s.getD j 21 < 20 then w else 0)
        msa weights).sum :=
  ⟨calculate_Ni_nongap msa weights i, calculate_Nij_nongap msa weights i j⟩

/-- C5: the serialized `q_ij` is a flat sequence of length
`400 * L(L-1)/2`; the entry for pair `(i, j)` and symbols `(a, b)` sits
at position `rank(i,j) * 400 + a * 20 + b` (row-major within each
`20 × 20` block); the loop enumerates the pairs in increasing
lexicographic order and exactly the pairs `i < j < L`. -/
theorem C5_q_ij_layout (res : CCMRes) (msa : List (List ℕ)) (weights : List ℚ)
    (pair_freq : ℕ → ℕ → ℕ → ℕ → ℚ) (lam : ℚ) (out : MsgOut)
    (h : write_msgpack res msa weights pair_freq lam = .ok out) :
    out.q_ij.length = 400 * (res.ncol * (res.ncol - 1) / 2) ∧
    (∀ i j a b : ℕ, i < j → j < res.ncol → a < 20 → b < 20 →
      out.q_ij[pairRank res.ncol i j * 400 + (a * 20 + b)]? =
        some (clampNeg (q_raw pair_freq res.x_pair lam
          (calculate_Nij msa weights) i j a b))) ∧
    List.Pairwise lexLT (pairList res.ncol) ∧
    (∀ p : ℕ × ℕ, p ∈ pairList res.ncol ↔ p.1 < p.2 ∧ p.2 < res.ncol) := by
  obtain ⟨-, hq⟩ := write_msgpack_ok res msa weights pair_freq lam out h
  refine ⟨?_, ?_, pairList_pairwise res.ncol, fun p => pairList_mem res.ncol p⟩
  · rw [hq, List.length_map, model_prob_flat_length]
  · intro i j a b hij hjL ha hb
    rw [hq, List.getElem?_map, model_prob_flat_getElem? res.ncol pair_freq
      res.x_pair lam _ i j a b hij hjL ha hb]
    rfl

/-- Witness for C5 on `msaA`: length `1200` and the entry of pair
`(0, 1)`, symbols `(0, 0)`. -/
theorem C5_q_ij_layout_witness :
    ((MsgOut.mk [3, 1, 1] (List.replicate 1200 (.num 0))).q_ij.length =
      400 * (resA.ncol * (resA.ncol - 1) / 2)) ∧
    (MsgOut.mk [3, 1, 1]
        (List.replicate 1200 (.num 0))).q_ij[pairRank resA.ncol 0 1 * 400 + (0 * 20 + 0)]? =
      some (clampNeg (q_raw zeroT resA.x_pair 1 (calculate_Nij msaA wA) 0 1 0 0)) :=
  ⟨(C5_q_ij_layout resA msaA wA zeroT 1 _ write_msgpack_A).1,
   (C5_q_ij_layout resA msaA wA zeroT 1 _ write_msgpack_A).2.1 0 1 0 0
     (by decide) (by decide) (by decide) (by decide)⟩

/-- C6: a function wrapped by `stream_or_file`, called on a string path,
opens a handle (with gzip exactly when the path ends in `".gz"`), passes
it to the wrapped function, propagates the function's result or raised
exception unchanged, and closes the handle on every exit path; called on
an already-open stream, it is the wrapped function applied to that
stream, and the wrapper closes nothing. -/
theorem C6_stream_or_file {α : Type} (fn : ℕ → FS → Except String α × FS)
    (s : FS) (name : String) (h : ℕ) :
    ((s.next, name.endsWith ".gz") ∈ ((fopen (name.endsWith ".gz") s).2).opened ∧
     (streamify fn (.path name) s).1 =
       (fn s.next ((fopen (name.endsWith ".gz") s).2)).1 ∧
     (∀ b : Bool, (s.next, b) ∉ (streamify fn (.path name) s).2.opened)) ∧
    streamify fn (.stream h) s = fn h s := by
  refine ⟨⟨?_, rfl, ?_⟩, rfl⟩
  · simp [fopen]
  · intro b
    simp only [streamify, fclose, List.mem_filter]
    rintro ⟨-, hb⟩
    simp [fopen] at hb

/-- C7: for every run of `main` that passes argument validation, the
process exit status is `0` when no optimization failure occurred —
including every `--do-not-optimize` run and the alternative-score early
exits — and equals the negated optimizer status code when the optimizer
ran and returned a negative code. -/
theorem C7_exit_code (opt : Opts) (c : ℤ)
    (hok : (parse_args_check opt).isOk = true) :
    firstExit (mainFull opt c) =
      some (if Ev.minimize ∈ mainFull opt c ∧ c < 0 then (-c).toNat else 0) := by
  cases hpc : parse_args_check opt with
  | error e => rw [hpc] at hok; simp [Except.isOk, Except.toBool] at hok
  | ok u =>
      simp only [mainFull, hpc]
      unfold mainTrace
      rw [firstExit_preTrace]
      by_cases h1 : opt.omes = true <;> by_cases h2 : opt.mi = true <;>
        by_cases h3 : opt.optimize = true <;>
        cases h4 : opt.matfile <;> cases h5 : opt.out_binary_raw_file <;>
        simp [h1, h2, h3, h4, h5, firstExit, List.mem_append,
          minimize_notMem_preTrace opt]

/-- Witness for C7: a valid pLL/LBFGS run whose optimizer returns `-3`
exits with status `3`. -/
theorem C7_exit_code_witness :
    (parse_args_check optRun).isOk = true ∧
    firstExit (mainFull optRun (-3)) =
      some (if Ev.minimize ∈ mainFull optRun (-3) ∧ (-3 : ℤ) < 0
        then (-(-3 : ℤ)).toNat else 0) ∧
    firstExit (mainFull optRun (-3)) = some 3 :=
  ⟨by decide, C7_exit_code optRun (-3) (by decide), by decide⟩

/-- C8: a command line pairing pseudo-likelihood with an optimizer other
than conjugate gradients, LBFGS or numerical differentiation, or pairing
contrastive divergence with an optimizer other than gradient descent or
Adam, fails `parse_args` with a usage error, and the run never reads the
alignment and never computes frequencies. -/
theorem C8_invalid_pairing (opt : Opts) (c : ℤ)
    (hbad : (opt.objfun = .pll ∧ opt.algorithm ≠ .conjugate_gradients ∧
        opt.algorithm ≠ .lbfgs ∧ opt.algorithm ≠ .numerical_differentiation) ∨
      (opt.objfun = .cd ∧ opt.algorithm ≠ .gradient_descent ∧
        opt.algorithm ≠ .adam)) :
    (parse_args_check opt).isOk = false ∧
    Ev.readAlignment ∉ mainFull opt c ∧
    Ev.computeFrequencies ∉ mainFull opt c := by
  have hfail : ∀ u : Unit, parse_args_check opt ≠ .ok u := by
    intro u hu
    unfold parse_args_check at hu
    split at hu
    · simp at hu
    · split at hu
      · simp at hu
      · split at hu
        · simp at hu
        · next hn1 hn2 hn3 =>
            rcases hbad with ⟨ho, ha1, ha2, ha3⟩ | ⟨ho, ha1, ha2⟩
            · exact hn2 ⟨ho, ha1, ha3, ha2⟩
            · exact hn3 ⟨ho, ha1, ha2⟩
  cases hpc : parse_args_check opt with
  | ok u => exact absurd hpc (hfail u)
  | error e =>
      refine ⟨rfl, ?_, ?_⟩ <;> simp [mainFull, hpc]

/-- Witness for C8: pseudo-likelihood with gradient descent is rejected
before the alignment is read. -/
theorem C8_invalid_pairing_witness :
    ((optBad.objfun = .pll ∧ optBad.algorithm ≠ .conjugate_gradients ∧
        optBad.algorithm ≠ .lbfgs ∧
        optBad.algorithm ≠ .numerical_differentiation) ∨
      (optBad.objfun = .cd ∧ optBad.algorithm ≠ .gradient_descent ∧
        optBad.algorithm ≠ .adam)) ∧
    (parse_args_check optBad).isOk = false ∧
    Ev.readAlignment ∉ mainFull optBad 0 ∧
    Ev.computeFrequencies ∉ mainFull optBad 0 :=
  ⟨by decide, C8_invalid_pairing optBad 0 (by decide)⟩

/-- C10: with `--compute-omes` or `--compute-mi` set (and a command line
that passes validation), `main` computes the alternative score right
after the frequency stage (and the optional PDB read), writes the score
matrix, and exits with status `0`; it never constructs the
regularization spec, never initializes potentials, and never runs an
optimizer. -/
theorem C10_alternative_scores (opt : Opts) (c : ℤ)
    (hok : (parse_args_check opt).isOk = true)
    (halt : opt.omes = true ∨ opt.mi = true) :
    mainFull opt c = preTrace opt ++
      ((if opt.omes then [Ev.computeOmes] else [Ev.computeMutualInfo]) ++
        [Ev.writeMatrix, Ev.exitWith 0]) ∧
    firstExit (mainFull opt c) = some 0 ∧
    Ev.specifyRegularization ∉ mainFull opt c ∧
    Ev.initialisePotentials ∉ mainFull opt c ∧
    Ev.minimize ∉ mainFull opt c := by
  cases hpc : parse_args_check opt with
  | error e => rw [hpc] at hok; simp [Except.isOk, Except.toBool] at hok
  | ok u =>
      have hpre : ∀ x : Ev, x ∈ preTrace opt →
          x = Ev.showLogo ∨ x = Ev.setNumThreads ∨ x = Ev.readAlignment ∨
          x = Ev.computeSequenceWeights ∨ x = Ev.computeFrequencies ∨
          x = Ev.readPdb := by
        unfold preTrace
        cases opt.logo <;> cases opt.pdbfile <;> intro x hx <;>
          simp at hx <;> tauto
      simp only [mainFull, hpc]
      unfold mainTrace
      rcases halt with h1 | h1
      · rw [if_pos h1]
        refine ⟨by simp [h1], ?_, ?_, ?_, ?_⟩
        · rw [firstExit_preTrace]
          simp [firstExit]
        all_goals
          intro hx
          rcases List.mem_append.mp hx with hx | hx
          · rcases hpre _ hx with h | h | h | h | h | h <;> simp at h
          · simp [h1] at hx
      · by_cases h0 : opt.omes = true
        · rw [if_pos h0]
          refine ⟨by simp [h0], ?_, ?_, ?_, ?_⟩
          · rw [firstExit_preTrace]
            simp [firstExit]
          all_goals
            intro hx
            rcases List.mem_append.mp hx with hx | hx
            · rcases hpre _ hx with h | h | h | h | h | h <;> simp at h
            · simp [h0] at hx
        · rw [if_neg h0, if_pos h1]
          have h0f : opt.omes = false := by
            cases ho : opt.omes
            · rfl
            · exact absurd ho h0
          refine ⟨by simp [h0f], ?_, ?_, ?_, ?_⟩
          · rw [firstExit_preTrace]
            simp [firstExit]
          all_goals
            intro hx
            rcases List.mem_append.mp hx with hx | hx
            · rcases hpre _ hx with h | h | h | h | h | h <;> simp at h
            · simp at hx

/-- Witness for C10: an `--compute-omes` run. -/
theorem C10_alternative_scores_witness :
    (parse_args_check optOmes).isOk = true ∧
    (optOmes.omes = true ∨ optOmes.mi = true) ∧
    mainFull optOmes 0 = preTrace optOmes ++
      ((if optOmes.omes then [Ev.computeOmes] else [Ev.computeMutualInfo]) ++
        [Ev.writeMatrix, Ev.exitWith 0]) ∧
    firstExit (mainFull optOmes 0) = some 0 ∧
    Ev.minimize ∉ mainFull optOmes 0 :=
  ⟨by decide, by decide,
   (C10_alternative_scores optOmes 0 (by decide) (by decide)).1,
   (C10_alternative_scores optOmes 0 (by decide) (by decide)).2.1,
   (C10_alternative_scores optOmes 0 (by decide) (by decide)).2.2.2.2⟩

/-- The allocate-allocate-fold-allocate pipeline of `write_msgpackH`
leaves every pre-existing cell unchanged, provided each fold step does:
the fold writes only to the freshly allocated `model_prob` cell. -/
theorem heap_pipeline_frame_nowrite (h0 : Heap) (v1 v2 w : List FVal)
    (step : Heap → ℕ × (ℕ × ℕ) → Heap) (l : List (ℕ × (ℕ × ℕ)))
    (hstake : ∀ hh pk, (step hh pk).cells.take h0.cells.length =
      hh.cells.take h0.cells.length)
    (hslen : ∀ hh pk, (step hh pk).cells.length = hh.cells.length) :
    (Heap.mk ((l.foldl step (Heap.mk (h0.cells ++ [v1] ++ [v2]))).cells ++
      [w])).cells.take h0.cells.length = h0.cells.take h0.cells.length := by
  have hfoldtake := foldl_step_take h0.cells.length step hstake l
    (Heap.mk (h0.cells ++ [v1] ++ [v2]))
  have hbase : (Heap.mk (h0.cells ++ [v1] ++ [v2])).cells.take h0.cells.length =
      h0.cells.take h0.cells.length := by
    show ((h0.cells ++ [v1]) ++ [v2]).take _ = _
    rw [List.take_append_of_le_length (by simp),
      List.take_append_of_le_length (le_refl _)]
  have hFlen : h0.cells.length ≤
      (l.foldl step (Heap.mk (h0.cells ++ [v1] ++ [v2]))).cells.length := by
    rw [foldl_step_length step hslen l (Heap.mk (h0.cells ++ [v1] ++ [v2]))]
    show h0.cells.length ≤ ((h0.cells ++ [v1]) ++ [v2]).length
    simp
  show ((l.foldl step (Heap.mk (h0.cells ++ [v1] ++ [v2]))).cells ++
      [w]).take _ = _
  rw [List.take_append_of_le_length hFlen]
  exact hfoldtake.trans hbase

/-- As `heap_pipeline_frame_nowrite`, with the final in-place clamp
write to the freshly allocated `model_prob_flat` cell. -/
theorem heap_pipeline_frame_write (h0 : Heap) (v1 v2 w u : List FVal)
    (step : Heap → ℕ × (ℕ × ℕ) → Heap) (l : List (ℕ × (ℕ × ℕ)))
    (hstake : ∀ hh pk, (step hh pk).cells.take h0.cells.length =
      hh.cells.take h0.cells.length)
    (hslen : ∀ hh pk, (step hh pk).cells.length = hh.cells.length) :
    ((Heap.mk ((l.foldl step (Heap.mk (h0.cells ++ [v1] ++ [v2]))).cells ++
        [w])).write
        ((l.foldl step (Heap.mk (h0.cells ++ [v1] ++ [v2]))).cells.length)
        u).cells.take h0.cells.length = h0.cells.take h0.cells.length := by
  have hFlen : h0.cells.length ≤
      (l.foldl step (Heap.mk (h0.cells ++ [v1] ++ [v2]))).cells.length := by
    rw [foldl_step_length step hslen l (Heap.mk (h0.cells ++ [v1] ++ [v2]))]
    show h0.cells.length ≤ ((h0.cells ++ [v1]) ++ [v2]).length
    simp
  rw [write_take _ _ _ _ hFlen]
  exact heap_pipeline_frame_nowrite h0 v1 v2 w step l hstake hslen

/-- C9: `write_msgpack` never mutates its inputs: every buffer that
exists before the call — in particular the alignment, the weights, the
pair potentials `res.x_pair` and the pair-frequency tensor — holds the
same contents afterwards; the only writes go to the freshly allocated
`model_prob` and `model_prob_flat` buffers. -/
theorem C9_write_msgpack_frame (L N : ℕ) (lam : ℚ) (msaR wR xR pR : ℕ)
    (h0 : Heap) :
    ((write_msgpackH L N lam msaR wR xR pR h0).1).cells.take h0.cells.length =
      h0.cells.take h0.cells.length := by
  unfold write_msgpackH
  dsimp only [Heap.alloc]
  split <;> split
  all_goals
    first
    | · refine heap_pipeline_frame_write h0 _ _ _ _ _ _ ?_ ?_
        · intro hh pk
          exact write_take hh _ _ h0.cells.length (by simp)
        · intro hh pk
          exact write_length hh _ _
    | · refine heap_pipeline_frame_nowrite h0 _ _ _ _ _ ?_ ?_
        · intro hh pk
          exact write_take hh _ _ h0.cells.length (by simp)
        · intro hh pk
          exact write_length hh _ _
